import Mathlib

/-!
Verification of `contrib/linearize/linearize-data.py` (the block-file
linearization tool).  Bytes are modelled as `List Nat` (each entry a byte
value `< 256`); machine 32-bit words are `Nat` with explicit masking;
Python file reads are pure functions over the file's byte list and a
cursor position.
-/

/-- Translation of `uint32(x)`: `x & 0xffffffff`. -/
def uint32 (x : Nat) : Nat := x &&& 0xffffffff

/-- Translation of `bytereverse(x)`:
`uint32((x << 24) | ((x << 8) & 0x00ff0000) | ((x >> 8) & 0x0000ff00) | (x >> 24))`. -/
def bytereverse (x : Nat) : Nat :=
  uint32 ((x <<< 24) ||| ((x <<< 8) &&& 0x00ff0000) ||| ((x >>> 8) &&& 0x0000ff00) ||| (x >>> 24))

/-- Little-endian 32-bit word from a byte list: `struct.unpack('@I', b)` /
`struct.unpack('<I', b)` on the x86-64 host the script targets (native byte
order `@` is little-endian there). -/
def leU32 (l : List Nat) : Nat := l.foldr (fun b acc => b + 256 * acc) 0

/-- Little-endian 4-byte encoding of a 32-bit word: `struct.pack('@I', x)`. -/
def packLE32 (x : Nat) : List Nat :=
  [x % 256, x / 256 % 256, x / 65536 % 256, x / 16777216 % 256]

/-- Successive 4-byte windows of a buffer: the iteration
`for i in range(0, len(in_buf), 4): ... in_buf[i:i+4]` shared by
`bufreverse` and `wordreverse`. -/
def chunks4 {α : Type} : List α → List (List α)
  | [] => []
  | a :: b :: c :: d :: t => [a, b, c, d] :: chunks4 t
  | l => [l]

/-- Translation of `bufreverse(in_buf)`: each 4-byte window is unpacked as a
native 32-bit word, byte-reversed, and repacked. -/
def bufreverse (in_buf : List Nat) : List Nat :=
  ((chunks4 in_buf).map (fun w => packLE32 (bytereverse (leU32 w)))).flatten

/-- Translation of `wordreverse(in_buf)`: the list of 4-byte windows is
reversed and rejoined. -/
def wordreverse (in_buf : List Nat) : List Nat :=
  ((chunks4 in_buf).reverse).flatten

/-- Hex digit character, lowercase, as produced by `bytes.hex()`. -/
def hexDigit (n : Nat) : Char := Char.ofNat (if n < 10 then 48 + n else 87 + n)

/-- Translation of `bytes.hex()`: two lowercase hex digits per byte. -/
def hexOfBytes (l : List Nat) : String :=
  String.mk ((l.map (fun b => [hexDigit (b / 16), hexDigit (b % 16)])).flatten)

/-- Translation of `calc_hdr_hash(gaia_hdr)`: the double SHA-256 digest.
`hashlib.sha256` is an external primitive; it is passed in as a pure
function `sha : List Nat → List Nat` on byte lists. -/
def calc_hdr_hash (sha : List Nat → List Nat) (gaia_hdr : List Nat) : List Nat :=
  sha (sha gaia_hdr)

/-- Translation of `calc_hash_str(gaia_hdr)`:
`(bufreverse; wordreverse; hex)` applied to the double digest. -/
def calc_hash_str (sha : List Nat → List Nat) (gaia_hdr : List Nat) : String :=
  hexOfBytes (wordreverse (bufreverse (calc_hdr_hash sha gaia_hdr)))

/-- Python-3 semantics of the comparison `inhdr[0] == "\x00"` at line 235:
indexing a `bytes` object yields an `int`, and in Python 3 an `int` compared
with a `str` by `==` is always `False` (no exception, no coercion). -/
def pyEqIntStr (_ : Nat) (_ : String) : Bool := false

/-- Result of `f.read(n)` at cursor `pos`: up to `n` bytes. -/
def readBytes (file : List Nat) (pos n : Nat) : List Nat := (file.drop pos).take n

/-- Outcome of one iteration of the scanning part of `BlockDataCopier.run`
(lines 231-257) on the currently open input file. -/
inductive ScanOutcome where
  /-- The empty-read / leading-NUL branch: close the file, advance `inFn`. -/
  | nextFile : ScanOutcome
  /-- Magic mismatch: `self.inF.seek(-7, os.SEEK_CUR)`; scanning resumes at
  the returned absolute position. -/
  | resync (newPos : Nat) : ScanOutcome
  /-- A `seek` to a negative absolute position raises `OSError` in Python. -/
  | seekErr : ScanOutcome
  /-- `struct.unpack("<I", inLenLE)` on fewer than 4 bytes raises
  `struct.error`. -/
  | structErr : ScanOutcome
  /-- A framing header matched: the 8-byte header, the 80-byte record header
  that follows, the payload length `inLen = su[0] - 80` (an `int`, possibly
  negative: the code performs no plausibility check), and the cursor
  position after the record-header read (the extent's `tell()`). -/
  | record (inhdr gaiahdr : List Nat) (inLen : Int) (newPos : Nat) : ScanOutcome
deriving DecidableEq

/-- One iteration of the scanning loop of `BlockDataCopier.run`
(lines 231-257), from the 8-byte header read up to the construction of the
record's extent, on a file whose bytes are `file` with read cursor `pos`. -/
def scanStep (netmagic file : List Nat) (pos : Nat) : ScanOutcome :=
  let inhdr := readBytes file pos 8
  let pos1 := pos + inhdr.length
  if inhdr.isEmpty || pyEqIntStr (inhdr.headD 0) "\x00" then
    ScanOutcome.nextFile
  else if inhdr.take 4 ≠ netmagic then
    if 7 ≤ pos1 then ScanOutcome.resync (pos1 - 7) else ScanOutcome.seekErr
  else if inhdr.length ≠ 8 then
    ScanOutcome.structErr
  else
    let inLen : Int := (leU32 (inhdr.drop 4) : Int) - 80
    let gaiahdr := readBytes file pos1 80
    ScanOutcome.record inhdr gaiahdr inLen (pos1 + gaiahdr.length)

/-- Translation of `mkblockmap(gaiaindex)`: the Python dict
`{hash: height}` built by enumeration, as an association list with dict
update semantics (a later binding for the same key overwrites in place). -/
def dinsertS (k : String) (v : Nat) : List (String × Nat) → List (String × Nat)
  | [] => [(k, v)]
  | (k', v') :: t => if k' = k then (k, v) :: t else (k', v') :: dinsertS k v t

/-- Keys of mkblockmap are built by `gaiamap[hash] = height` over
`enumerate(gaiaindex)`. -/
def mkblockmap (gaiaindex : List String) : List (String × Nat) :=
  (gaiaindex.enum.foldl (fun m hv => dinsertS hv.2 hv.1 m) [])

/-- Key membership `hash in gaiamap` for the modelled dict. -/
def containsKeyS (k : String) (m : List (String × Nat)) : Bool :=
  m.any (fun kv => kv.1 = k)

/-- What the `__main__` tail (lines 346-350) does after building the map. -/
inductive MainOutcome where
  /-- `print("Genesis block not found in hashlist")` and nothing else: the
  copier is neither constructed nor run. -/
  | reportGenesisMissing : MainOutcome
  /-- `BlockDataCopier(settings, gaiaindex, gaiamap).run()`. -/
  | runCopier : MainOutcome
deriving DecidableEq

/-- Translation of lines 346-350:
`if not settings['genesis'] in gaiamap: print(...) else: BlockDataCopier(...).run()`. -/
def mainGenesisGate (genesis : String) (gaiamap : List (String × Nat)) : MainOutcome :=
  if ¬ (containsKeyS genesis gaiamap = true) then MainOutcome.reportGenesisMissing
  else MainOutcome.runCopier

/-- Association-list lookup with Python-dict semantics (`d[k]` /
`k in d`), for the `Nat`-keyed dicts `blockExtents` and `outOfOrderData`. -/
def dlookup {α : Type} (k : Nat) : List (Nat × α) → Option α
  | [] => none
  | (k', v) :: t => if k' = k then some v else dlookup k t

/-- Dict assignment `d[k] = v`: overwrite in place, or append a new key. -/
def dinsert {α : Type} (k : Nat) (v : α) : List (Nat × α) → List (Nat × α)
  | [] => [(k, v)]
  | (k', v') :: t => if k' = k then (k, v) :: t else (k', v') :: dinsert k v t

/-- Key removal, the removing half of `d.pop(k)`. -/
def derase {α : Type} (k : Nat) : List (Nat × α) → List (Nat × α)
  | [] => []
  | (k', v') :: t => if k' = k then t else (k', v') :: derase k t

/-- Well-formed input record as consumed by the reorder engine: a record
whose hash is in `gaiamap` with the given height, whose declared length
field equals `80 + payload.length`, and whose payload bytes are `payload`.
At this level a `BlockExtent` is modelled by the record it denotes: the
extent's `(fn, offset, size)` uniquely locate `payload` on disk, so
`fetchBlock extent` returns exactly `payload`. -/
structure InRec where
  height : Nat
  inhdr : List Nat
  gaiahdr : List Nat
  payload : List Nat
deriving DecidableEq

/-- State of `BlockDataCopier` relevant to the reorder loop: the output
cursor `gaiaCountOut`, the extent map `blockExtents`, the out-of-order
cache `outOfOrderData` with its running byte total `outOfOrderSize`, and
the stream of records written so far (the successive
`writeBlock(inhdr, gaia_hdr, rawblock)` calls). -/
structure EngState where
  gaiaCountOut : Nat
  blockExtents : List (Nat × InRec)
  outOfOrderData : List (Nat × List Nat)
  outOfOrderSize : Nat
  output : List InRec
deriving DecidableEq

/-- Initial engine state from `BlockDataCopier.__init__`. -/
def initEng : EngState := ⟨0, [], [], 0, []⟩

/-- Effect of a `writeBlock(inhdr, gaia_hdr, rawblock)` call on the engine
state: one record appended to the output stream and
`gaiaCountOut += 1`. -/
def writeRec (st : EngState) (h : Nat) (ih gh raw : List Nat) : EngState :=
  { st with output := st.output ++ [⟨h, ih, gh, raw⟩],
            gaiaCountOut := st.gaiaCountOut + 1 }

/-- Translation of the catch-up loop
`while self.gaiaCountOut in self.blockExtents: self.copyOneBlock()`
together with `copyOneBlock` (lines 211-221): pop the extent for the
current cursor, take the payload from the out-of-order cache when present
(removing it and decreasing the running total by `len(rawblock)`),
otherwise fetch it from disk via the extent, and write it.  `fuel` bounds
the iteration count; each iteration removes one extent, so fuel equal to
`blockExtents.length` suffices for full drainage. -/
def drainLoop : Nat → EngState → EngState
  | 0, st => st
  | fuel + 1, st =>
    match dlookup st.gaiaCountOut st.blockExtents with
    | none => st
    | some ext =>
      let st1 : EngState := { st with blockExtents := derase st.gaiaCountOut st.blockExtents }
      match dlookup st1.gaiaCountOut st1.outOfOrderData with
      | some raw =>
        let st2 : EngState :=
          { st1 with outOfOrderData := derase st1.gaiaCountOut st1.outOfOrderData,
                     outOfOrderSize := st1.outOfOrderSize - raw.length }
        drainLoop fuel (writeRec st2 ext.height ext.inhdr ext.gaiahdr raw)
      | none =>
        drainLoop fuel (writeRec st1 ext.height ext.inhdr ext.gaiahdr ext.payload)

/-- Translation of the per-record tail of `BlockDataCopier.run`
(lines 258-284), for a record already recognized in `gaiamap` (height
`r.height`): the in-order branch writes the record and drains; the
out-of-order branch stores the extent and, if `outOfOrderSize` is still
strictly below the configured `out_of_order_cache_sz` ceiling, also caches
the payload, adding the declared length (`inLen = payload.length` for a
well-formed record) to the running total; otherwise it seeks past the
payload. -/
def engStep (cacheSz : Nat) (st : EngState) (r : InRec) : EngState :=
  if st.gaiaCountOut = r.height then
    let st1 := writeRec st r.height r.inhdr r.gaiahdr r.payload
    drainLoop st1.blockExtents.length st1
  else
    let st1 : EngState := { st with blockExtents := dinsert r.height r st.blockExtents }
    if st1.outOfOrderSize < cacheSz then
      { st1 with outOfOrderData := dinsert r.height r.payload st1.outOfOrderData,
                 outOfOrderSize := st1.outOfOrderSize + r.payload.length }
    else st1

/-- The `run` loop at record granularity over the sequence of well-formed
known records produced by the scanner, with the loop guard
`while self.gaiaCountOut < len(self.gaiaindex)` (`N` is the index
length): once the cursor reaches `N` remaining records are not
processed. -/
def engRun (N cacheSz : Nat) (rs : List InRec) : EngState :=
  rs.foldl (fun st r => if st.gaiaCountOut < N then engStep cacheSz st r else st) initEng

/-- First record of the run with the given height, if any:
the record `gaiamap` height lookup resolves to. -/
def findByHeight (rs : List InRec) (h : Nat) : Option InRec :=
  rs.find? (fun r => r.height == h)

/-- Record as consumed by `writeBlock`. -/
structure WRec where
  inhdr : List Nat
  gaiahdr : List Nat
  rawblock : List Nat
deriving DecidableEq

/-- Translation of `blockSizeOnDisk = len(inhdr) + len(gaia_hdr) + len(rawblock)`. -/
def WRec.sizeOnDisk (r : WRec) : Nat :=
  r.inhdr.length + r.gaiahdr.length + r.rawblock.length

/-- Timestamp of a record: `get_gaia_dt` unpacks `gaia_hdr[68:68+4]` as a
little-endian 32-bit Unix time `nTime`. -/
def WRec.ts (r : WRec) : Nat := leU32 ((r.gaiahdr.drop 68).take 4)

/-- Configuration of the output writer.  `dateOf` models the external
calendar computation of `get_gaia_dt`: the `datetime(dt.year, dt.month, 1)`
month bucket of a Unix timestamp, encoded as a `Nat` whose order agrees
with datetime comparison (for example `year * 12 + month`); `lastDate0`
is the bucket of `datetime(2000, 1, 1)`. -/
structure WCfg where
  fileOutput : Bool
  setFileTime : Bool
  timestampSplit : Bool
  maxOutSz : Nat
  dateOf : Nat → Nat
  lastDate0 : Nat

/-- Baseline for the running high timestamp:
`self.highTS = 1408893517 - 315360000` in `__init__`. -/
def initialHighTS : Nat := 1408893517 - 315360000

/-- Output-writer state: the output file counter `outFn`, the byte count
`outsz` of the current file, the current file `outF` (`none` when closed),
the finished files in order, each with the mtime passed to `os.utime` at
its close (`none` when `setFileTime` is off; the atime argument
`int(time.time())` is external wall-clock and not modelled), the running
high timestamp, and the last month bucket `lastDate`. -/
structure WState where
  outFn : Nat
  outsz : Nat
  outF : Option (List WRec)
  closed : List (List WRec × Option Nat)
  highTS : Nat
  lastDate : Nat
deriving DecidableEq

/-- Writer state from `BlockDataCopier.__init__`. -/
def initW (cfg : WCfg) : WState :=
  ⟨0, 0, none, [], initialHighTS, cfg.lastDate0⟩

/-- The close-and-rotate sequence that appears twice in `writeBlock`:
`outF.close(); if setFileTime: os.utime(outFname, (time, highTS));
outF = None; outFname = None; outFn += 1; outsz = 0`. -/
def closeCurrent (cfg : WCfg) (st : WState) (f : List WRec) : WState :=
  { st with closed := st.closed ++ [(f, if cfg.setFileTime then some st.highTS else none)],
            outF := none,
            outFn := st.outFn + 1,
            outsz := 0 }

/-- First phase of `writeBlock` (lines 158-165): in directory-output mode,
if appending would exceed `maxOutSz`, close the current file and rotate.
Returns `none` for the `AttributeError` raised when this branch calls
`self.outF.close()` while `outF` is `None` (only possible on the first
write). -/
def sizeRotate (cfg : WCfg) (st : WState) (bs : Nat) : Option WState :=
  if cfg.fileOutput = false ∧ cfg.maxOutSz < st.outsz + bs then
    match st.outF with
    | none => none
    | some f => some (closeCurrent cfg st f)
  else some st

/-- Second phase of `writeBlock` (lines 167-177): when `timestampSplit` is
on and the record's month bucket advances past `lastDate`, update
`lastDate` and close the current file if one is open. -/
def monthRotate (cfg : WCfg) (st : WState) (gaiaDate : Nat) : WState :=
  if cfg.timestampSplit = true ∧ st.lastDate < gaiaDate then
    match st.outF with
    | some f => closeCurrent cfg { st with lastDate := gaiaDate } f
    | none => { st with lastDate := gaiaDate }
  else st

/-- Third phase of `writeBlock` (lines 179-196): open a fresh file if none
is open (`outF.getD []`), append the record's bytes, add their size to
`outsz`, and raise `highTS` to the record's timestamp if it is larger. -/
def appendRec (st : WState) (r : WRec) : WState :=
  { st with outF := some (((st.outF).getD []) ++ [r]),
            outsz := st.outsz + r.sizeOnDisk,
            highTS := if st.highTS < r.ts then r.ts else st.highTS }

/-- Translation of `BlockDataCopier.writeBlock` (lines 157-200), as the
sequence of its three phases.  The progress print and the `gaiaCountOut`
counter are modelled in the engine, not here. -/
def writeBlock (cfg : WCfg) (st : WState) (r : WRec) : Option WState :=
  match sizeRotate cfg st r.sizeOnDisk with
  | none => none
  | some st1 => some (appendRec (monthRotate cfg st1 (cfg.dateOf r.ts)) r)

/-- Sequence of `writeBlock` calls; a raised `AttributeError` aborts. -/
def runW (cfg : WCfg) : WState → List WRec → Option WState
  | st, [] => some st
  | st, r :: rest =>
    match writeBlock cfg st r with
    | none => none
    | some st' => runW cfg st' rest

/-- Total byte size of a finished output file. -/
def fileSize (f : List WRec) : Nat := (f.map WRec.sizeOnDisk).sum

/-- Finished (closed) output files of a run from the initial state, with
their recorded mtimes; an aborted run contributes nothing. -/
def wClosed (cfg : WCfg) (rs : List WRec) : List (List WRec × Option Nat) :=
  match runW cfg (initW cfg) rs with
  | none => []
  | some st => st.closed

/-- All output files of a successful run, the still-open final one last. -/
def wAllFiles (cfg : WCfg) (rs : List WRec) : List (List WRec) :=
  match runW cfg (initW cfg) rs with
  | none => []
  | some st => st.closed.map Prod.fst ++ [(st.outF).getD []]

/-! Helper lemmas on 4-byte windows. -/

theorem flatten_chunks4 {α : Type} (l : List α) : (chunks4 l).flatten = l := by
  induction l using chunks4.induct <;> simp [chunks4, *]

theorem chunks4_flatten {α : Type} (L : List (List α)) (h : ∀ c ∈ L, c.length = 4) :
    chunks4 L.flatten = L := by
  induction L with
  | nil => rfl
  | cons c t ih =>
    have hc : c.length = 4 := h c (by simp)
    rcases c with _ | ⟨a, _ | ⟨b, _ | ⟨c2, _ | ⟨d2, _ | _⟩⟩⟩⟩ <;> simp at hc
    have ih' := ih (fun c hmem => h c (by simp [hmem]))
    simp [chunks4, ih']

theorem mem_chunks4_length {α : Type} :
    ∀ l : List α, l.length % 4 = 0 → ∀ c ∈ chunks4 l, c.length = 4 := by
  intro l
  induction l using chunks4.induct with
  | case1 => intro _ c hc; simp [chunks4] at hc
  | case2 a b c2 d t ih =>
    intro hmod c hc
    simp [chunks4] at hc
    rcases hc with rfl | hc
    · rfl
    · exact ih (by simp at hmod ⊢; omega) c hc
  | case3 l h1 h2 =>
    intro hmod c hc
    rcases l with _ | ⟨a, _ | ⟨b, _ | ⟨c2, _ | ⟨d2, t⟩⟩⟩⟩
    · simp at h1
    · simp at hmod
    · simp at hmod
    · simp at hmod
    · exact absurd rfl (h2 a b c2 d2 t)

theorem mem_of_mem_chunks4 {α : Type} :
    ∀ (l : List α) (c : List α), c ∈ chunks4 l → ∀ x ∈ c, x ∈ l := by
  intro l
  induction l using chunks4.induct with
  | case1 => intro c hc; simp [chunks4] at hc
  | case2 a b c2 d t ih =>
    intro c hc x hx
    simp [chunks4] at hc
    rcases hc with rfl | hc
    · simp at hx; rcases hx with rfl | rfl | rfl | rfl <;> simp
    · have := ih c hc x hx; simp [this]
  | case3 l h1 h2 =>
    intro c hc x hx
    simp [chunks4] at hc
    subst hc; exact hx

/-! Bit-level helper lemmas for `bytereverse`. -/

theorem and_mask32 (x : Nat) : x &&& 0xffffffff = x % 4294967296 := by
  have h := Nat.and_pow_two_sub_one_eq_mod x 32
  norm_num at h
  exact h

theorem lor_two_pow_mul (k a b : Nat) (hb : b < 2 ^ k) :
    (2 ^ k * a) ||| b = 2 ^ k * a + b := by
  apply Nat.eq_of_testBit_eq
  intro j
  rw [Nat.testBit_lor, Nat.testBit_mul_pow_two_add a hb j]
  by_cases hj : j < k
  · have h1 : (2 ^ k * a).testBit j = false := by
      rw [mul_comm, ← Nat.shiftLeft_eq, Nat.testBit_shiftLeft]
      simp [Nat.not_le.mpr hj]
    simp [h1, hj]
  · have h1 : b.testBit j = false :=
      Nat.testBit_lt_two_pow (lt_of_lt_of_le hb (Nat.pow_le_pow_right (by norm_num) (Nat.le_of_not_lt hj)))
    have h2 : (2 ^ k * a).testBit j = a.testBit (j - k) := by
      rw [mul_comm, ← Nat.shiftLeft_eq, Nat.testBit_shiftLeft]
      simp [ge_iff_le, Nat.le_of_not_lt hj]
    simp [h1, h2, hj]

theorem and_byte_mask (y k : Nat) : y &&& (2 ^ k * (2 ^ 8 - 1)) = 2 ^ k * (y / 2 ^ k % 2 ^ 8) := by
  apply Nat.eq_of_testBit_eq
  intro j
  have hz : (0 : Nat) < 2 ^ k := Nat.pos_pow_of_pos k (by norm_num)
  have e1 : (2 ^ k * (2 ^ 8 - 1)).testBit j
      = if j < k then false else (2 ^ (8 : Nat) - 1).testBit (j - k) := by
    have := Nat.testBit_mul_pow_two_add (2 ^ 8 - 1) (b := 0) hz j
    simpa using this
  have e2 : (2 ^ k * (y / 2 ^ k % 2 ^ 8)).testBit j
      = if j < k then false else (y / 2 ^ k % 2 ^ 8).testBit (j - k) := by
    have := Nat.testBit_mul_pow_two_add (y / 2 ^ k % 2 ^ 8) (b := 0) hz j
    simpa using this
  rw [Nat.testBit_land, e1, e2]
  by_cases hj : j < k
  · simp [hj]
  · have e3 : (y / 2 ^ k % 2 ^ 8).testBit (j - k)
        = (decide (j - k < 8) && (y / 2 ^ k).testBit (j - k)) := by
      rw [Nat.testBit_mod_two_pow]
    have e4 : (y / 2 ^ k).testBit (j - k) = y.testBit (k + (j - k)) := by
      rw [← Nat.shiftRight_eq_div_pow, Nat.testBit_shiftRight]
    have e5 : k + (j - k) = j := by omega
    rw [Nat.testBit_two_pow_sub_one]
    simp only [hj, if_false, e3, e4, e5]
    rw [Bool.and_comm]

theorem bytereverse_eq (x : Nat) (hx : x < 4294967296) :
    bytereverse x =
      16777216 * (x % 256) + 65536 * (x / 256 % 256) + 256 * (x / 65536 % 256) + x / 16777216 := by
  unfold bytereverse uint32
  have e1 : x <<< 24 = 2 ^ 24 * x := by rw [Nat.shiftLeft_eq]; ring
  have e2 : (x <<< 8) &&& 0x00ff0000 = 2 ^ 16 * (x / 2 ^ 8 % 2 ^ 8) := by
    rw [Nat.shiftLeft_eq]
    have hm : (0x00ff0000 : Nat) = 2 ^ 16 * (2 ^ 8 - 1) := by norm_num
    rw [hm, and_byte_mask]
    have h2 : x * 2 ^ 8 / 2 ^ 16 = x / 2 ^ 8 := by
      rw [show (2 ^ 16 : Nat) = 2 ^ 8 * 2 ^ 8 by norm_num, ← Nat.div_div_eq_div_mul,
        Nat.mul_div_cancel _ (by norm_num : (0 : Nat) < 2 ^ 8)]
    rw [h2]
  have e3 : (x >>> 8) &&& 0x0000ff00 = 2 ^ 8 * (x / 2 ^ 16 % 2 ^ 8) := by
    rw [Nat.shiftRight_eq_div_pow]
    have hm : (0x0000ff00 : Nat) = 2 ^ 8 * (2 ^ 8 - 1) := by norm_num
    rw [hm, and_byte_mask]
    have h2 : x / 2 ^ 8 / 2 ^ 8 = x / 2 ^ 16 := by
      rw [Nat.div_div_eq_div_mul]
      norm_num
    rw [h2]
  have e4 : x >>> 24 = x / 2 ^ 24 := Nat.shiftRight_eq_div_pow x 24
  rw [e1, e2, e3, e4]
  have l1 : 2 ^ 24 * x ||| 2 ^ 16 * (x / 2 ^ 8 % 2 ^ 8)
      = 2 ^ 24 * x + 2 ^ 16 * (x / 2 ^ 8 % 2 ^ 8) := by
    apply lor_two_pow_mul
    have h := Nat.mod_lt (x / 2 ^ 8) (y := 2 ^ 8) (by norm_num)
    omega
  rw [l1]
  have r1 : 2 ^ 24 * x + 2 ^ 16 * (x / 2 ^ 8 % 2 ^ 8)
      = 2 ^ 16 * (2 ^ 8 * x + x / 2 ^ 8 % 2 ^ 8) := by ring
  rw [r1]
  have l2 : 2 ^ 16 * (2 ^ 8 * x + x / 2 ^ 8 % 2 ^ 8) ||| 2 ^ 8 * (x / 2 ^ 16 % 2 ^ 8)
      = 2 ^ 16 * (2 ^ 8 * x + x / 2 ^ 8 % 2 ^ 8) + 2 ^ 8 * (x / 2 ^ 16 % 2 ^ 8) := by
    apply lor_two_pow_mul
    have h := Nat.mod_lt (x / 2 ^ 16) (y := 2 ^ 8) (by norm_num)
    omega
  rw [l2]
  have r2 : 2 ^ 16 * (2 ^ 8 * x + x / 2 ^ 8 % 2 ^ 8) + 2 ^ 8 * (x / 2 ^ 16 % 2 ^ 8)
      = 2 ^ 8 * (2 ^ 16 * x + 2 ^ 8 * (x / 2 ^ 8 % 2 ^ 8) + x / 2 ^ 16 % 2 ^ 8) := by ring
  rw [r2]
  have l3 : 2 ^ 8 * (2 ^ 16 * x + 2 ^ 8 * (x / 2 ^ 8 % 2 ^ 8) + x / 2 ^ 16 % 2 ^ 8) ||| x / 2 ^ 24
      = 2 ^ 8 * (2 ^ 16 * x + 2 ^ 8 * (x / 2 ^ 8 % 2 ^ 8) + x / 2 ^ 16 % 2 ^ 8) + x / 2 ^ 24 := by
    apply lor_two_pow_mul
    have h : x / 2 ^ 24 < 2 ^ 8 := by
      apply Nat.div_lt_of_lt_mul
      calc x < 4294967296 := hx
        _ = 2 ^ 24 * 2 ^ 8 := by norm_num
    exact h
  rw [l3, and_mask32]
  norm_num
  omega

theorem leU32_four (a b c d : Nat) :
    leU32 [a, b, c, d] = a + 256 * b + 65536 * c + 16777216 * d := by
  simp [leU32]; ring

theorem packLE32_sum (a b c d : Nat) (ha : a < 256) (hb : b < 256) (hc : c < 256)
    (hd : d < 256) : packLE32 (16777216 * a + 65536 * b + 256 * c + d) = [d, c, b, a] := by
  simp only [packLE32, List.cons.injEq, and_true]
  omega

theorem bufchunk_rev (a b c d : Nat) (ha : a < 256) (hb : b < 256) (hc : c < 256) (hd : d < 256) :
    packLE32 (bytereverse (leU32 [a, b, c, d])) = [d, c, b, a] := by
  have hx : leU32 [a, b, c, d] < 4294967296 := by rw [leU32_four]; omega
  rw [bytereverse_eq _ hx, leU32_four]
  have e : 16777216 * ((a + 256 * b + 65536 * c + 16777216 * d) % 256)
      + 65536 * ((a + 256 * b + 65536 * c + 16777216 * d) / 256 % 256)
      + 256 * ((a + 256 * b + 65536 * c + 16777216 * d) / 65536 % 256)
      + (a + 256 * b + 65536 * c + 16777216 * d) / 16777216
      = 16777216 * a + 65536 * b + 256 * c + d := by omega
  rw [e]
  exact packLE32_sum a b c d ha hb hc hd

theorem packrev_invol (w : List Nat) (h4 : w.length = 4) (hb : ∀ x ∈ w, x < 256) :
    packLE32 (bytereverse (leU32 (packLE32 (bytereverse (leU32 w))))) = w := by
  rcases w with _ | ⟨a, _ | ⟨b, _ | ⟨c, _ | ⟨d, _ | _⟩⟩⟩⟩ <;> simp at h4
  have ha := hb a (by simp)
  have hb' := hb b (by simp)
  have hc := hb c (by simp)
  have hd := hb d (by simp)
  rw [bufchunk_rev a b c d ha hb' hc hd, bufchunk_rev d c b a hd hc hb' ha]

theorem map_pack_length {L : List (List Nat)} :
    ∀ c ∈ L.map (fun w => packLE32 (bytereverse (leU32 w))), c.length = 4 := by
  intro c hc
  rw [List.mem_map] at hc
  obtain ⟨w, _, rfl⟩ := hc
  rfl

theorem reversal_roundtrip (buf : List Nat) (hb : ∀ x ∈ buf, x < 256)
    (hm : buf.length % 4 = 0) :
    wordreverse (bufreverse (wordreverse (bufreverse buf))) = buf := by
  have HC4 : ∀ c ∈ chunks4 buf, c.length = 4 := mem_chunks4_length buf hm
  have HCB : ∀ c ∈ chunks4 buf, ∀ x ∈ c, x < 256 :=
    fun c hc x hx => hb x (mem_of_mem_chunks4 buf c hc x hx)
  have s2 : wordreverse (bufreverse buf)
      = (((chunks4 buf).reverse).map (fun w => packLE32 (bytereverse (leU32 w)))).flatten := by
    unfold wordreverse bufreverse
    rw [chunks4_flatten _ map_pack_length, ← List.map_reverse]
  have s3 : bufreverse (wordreverse (bufreverse buf)) = ((chunks4 buf).reverse).flatten := by
    rw [s2]
    unfold bufreverse
    rw [chunks4_flatten _ map_pack_length, List.map_map]
    have e : ((chunks4 buf).reverse).map
        ((fun w => packLE32 (bytereverse (leU32 w))) ∘ (fun w => packLE32 (bytereverse (leU32 w))))
        = ((chunks4 buf).reverse).map id := by
      apply List.map_congr_left
      intro w hw
      exact packrev_invol w (HC4 w (List.mem_reverse.mp hw)) (HCB w (List.mem_reverse.mp hw))
    rw [e, List.map_id]
  rw [s3]
  unfold wordreverse
  rw [chunks4_flatten _ (fun c hc => HC4 c (List.mem_reverse.mp hc)), List.reverse_reverse,
    flatten_chunks4]

/-- C7: hashing is deterministic (`calc_hash_str` applied twice to the same
80-byte header yields the same string), and the word-plus-buffer reversal
applied twice is the identity on any byte buffer whose length is a multiple
of 4 (the round-trip law). -/
theorem c7_hash_deterministic_and_reversal_roundtrip :
    (∀ (sha : List Nat → List Nat) (hdr : List Nat),
        calc_hash_str sha hdr = calc_hash_str sha hdr) ∧
    (∀ buf : List Nat, (∀ x ∈ buf, x < 256) → buf.length % 4 = 0 →
        wordreverse (bufreverse (wordreverse (bufreverse buf))) = buf) := by
  constructor
  · intro sha hdr
    rfl
  · intro buf hb hm
    exact reversal_roundtrip buf hb hm

/-- C7 witness: the round-trip law instantiated on the concrete buffer
`[1, 2, 3, 4]`. -/
theorem c7_witness :
    wordreverse (bufreverse (wordreverse (bufreverse [1, 2, 3, 4]))) = [1, 2, 3, 4] :=
  c7_hash_deterministic_and_reversal_roundtrip.2 [1, 2, 3, 4] (by decide) (by decide)

/-- C3 counterexample: with a hash map built from the single hash `"aa"`
and the genesis hash `"00"` absent from it, the `__main__` tail reports the
missing genesis and does not run the copier, contradicting the claim that
the engine is constructed and run even when the genesis hash is not in the
map. -/
theorem c3_counterexample :
    mainGenesisGate "00" (mkblockmap ["aa"]) = MainOutcome.reportGenesisMissing ∧
    MainOutcome.reportGenesisMissing ≠ MainOutcome.runCopier := by
  constructor
  · rfl
  · intro h
    cases h

/-- C3 amended: if the genesis hash is absent from the loaded hash map, the
condition is reported and the run is NOT attempted; the copier runs only
when the genesis hash is present. -/
theorem c3_amended (genesis : String) (gaiamap : List (String × Nat))
    (habs : containsKeyS genesis gaiamap = false) :
    mainGenesisGate genesis gaiamap = MainOutcome.reportGenesisMissing := by
  unfold mainGenesisGate
  rw [habs]
  simp

/-- C3 witness: the amended statement at the concrete genesis hash `"ff"`
and a two-entry map not containing it. -/
theorem c3_witness :
    containsKeyS "ff" (mkblockmap ["aa", "bb"]) = false ∧
    mainGenesisGate "ff" (mkblockmap ["aa", "bb"]) = MainOutcome.reportGenesisMissing :=
  ⟨by decide, c3_amended "ff" (mkblockmap ["aa", "bb"]) (by decide)⟩

/-- C5: an 8-byte framing header consisting of NUL bytes is NOT treated as
end of file.  The check `inhdr[0] == "\0"` at line 235 compares the `int`
`inhdr[0]` with a one-character `str`, which is always `False` in
Python 3, so the scanner falls through to the magic comparison and
resynchronizes one byte forward instead of closing the file and advancing
to the next file id. -/
theorem c5_nul_header_not_file_end :
    scanStep [0xf9, 0xbe, 0xb4, 0xd9] (List.replicate 8 0) 0 = ScanOutcome.resync 1 ∧
    ScanOutcome.resync 1 ≠ ScanOutcome.nextFile := by
  constructor
  · rfl
  · intro h
    cases h

theorem readBytes_length_eight (file : List Nat) (pos : Nat) (h8 : pos + 8 ≤ file.length) :
    (readBytes file pos 8).length = 8 := by
  unfold readBytes
  rw [List.length_take, List.length_drop]
  omega

/-- C6: when a full 8-byte framing header is available at `pos` but its
4-byte magic tag does not match, the scanner seeks 7 bytes backwards from
the post-read position `pos + 8`, so the next iteration reads from
`pos + 1`: exactly one byte past this attempt's start offset. -/
theorem c6_magic_mismatch_resync (netmagic file : List Nat) (pos : Nat)
    (h8 : pos + 8 ≤ file.length)
    (hmagic : (file.drop pos).take 4 ≠ netmagic) :
    scanStep netmagic file pos = ScanOutcome.resync (pos + 1) := by
  have hlen := readBytes_length_eight file pos h8
  have hne : (readBytes file pos 8).isEmpty = false := by
    cases hrb : readBytes file pos 8 with
    | nil => rw [hrb] at hlen; simp at hlen
    | cons a t => rfl
  have htk : (readBytes file pos 8).take 4 = (file.drop pos).take 4 := by
    unfold readBytes
    rw [List.take_take]
    norm_num
  have h7 : 7 ≤ pos + 8 := by omega
  have h87 : pos + 8 - 7 = pos + 1 := by omega
  unfold scanStep
  simp only [hne, hlen, htk, pyEqIntStr, Bool.or_false, Bool.false_eq_true, if_false,
    hmagic, ne_eq, not_false_iff, if_true, h7, h87]

/-- C6 witness: a 9-byte file starting with bytes that do not match the
network magic; the scan step at offset 0 resynchronizes to offset 1. -/
theorem c6_witness :
    (0 + 8 ≤ ([1, 2, 3, 4, 5, 6, 7, 8, 9] : List Nat).length) ∧
    scanStep [0xf9, 0xbe, 0xb4, 0xd9] [1, 2, 3, 4, 5, 6, 7, 8, 9] 0 = ScanOutcome.resync (0 + 1) :=
  ⟨by decide,
   c6_magic_mismatch_resync [0xf9, 0xbe, 0xb4, 0xd9] [1, 2, 3, 4, 5, 6, 7, 8, 9] 0
     (by decide) (by decide)⟩

/-- C4 amended: when a full 8-byte framing header with a matching magic tag
is read, the payload size is computed as the declared little-endian 32-bit
length minus 80 (an integer that may be negative); the code performs no
plausibility check on this value and the outcome is the ordinary
record-extent continuation, never an abort. -/
theorem c4_payload_size_no_abort (netmagic file : List Nat) (pos : Nat)
    (h8 : pos + 8 ≤ file.length)
    (hmagic : (file.drop pos).take 4 = netmagic) :
    scanStep netmagic file pos =
      ScanOutcome.record ((file.drop pos).take 8) ((file.drop (pos + 8)).take 80)
        ((leU32 ((file.drop (pos + 4)).take 4) : Int) - 80)
        (pos + 8 + ((file.drop (pos + 8)).take 80).length) := by
  have hlen := readBytes_length_eight file pos h8
  have hne : (readBytes file pos 8).isEmpty = false := by
    cases hrb : readBytes file pos 8 with
    | nil => rw [hrb] at hlen; simp at hlen
    | cons a t => rfl
  have htk : (readBytes file pos 8).take 4 = (file.drop pos).take 4 := by
    unfold readBytes
    rw [List.take_take]
    norm_num
  have hdr4 : (readBytes file pos 8).drop 4 = (file.drop (pos + 4)).take 4 := by
    unfold readBytes
    rw [List.drop_take, List.drop_drop]
  unfold scanStep readBytes
  unfold readBytes at hne hlen htk hdr4
  simp only [hne, hlen, htk, hdr4, pyEqIntStr, Bool.or_false, Bool.false_eq_true, if_false,
    hmagic, ne_eq, not_true, if_true, ite_false]

/-- C4 counterexample: a record whose framing header declares total length
0 (valid magic `f9beb4d9`, length field `00 00 00 00`) yields the computed
payload size `0 - 80 = -80 < 0`, and the scan outcome is the ordinary
record continuation — the run is not aborted as fatal. -/
theorem c4_counterexample :
    scanStep [0xf9, 0xbe, 0xb4, 0xd9]
        ([0xf9, 0xbe, 0xb4, 0xd9, 0, 0, 0, 0] ++ List.replicate 80 0) 0 =
      ScanOutcome.record [0xf9, 0xbe, 0xb4, 0xd9, 0, 0, 0, 0] (List.replicate 80 0) (-80) 88 ∧
    (-80 : Int) < 0 := by
  constructor
  · decide
  · decide

/-- C4 witness: the amended statement at a concrete corrupt record whose
declared length is 5, so the computed payload size is `5 - 80 = -75`. -/
theorem c4_witness :
    (0 + 8 ≤ (([0xf9, 0xbe, 0xb4, 0xd9, 5, 0, 0, 0] ++ List.replicate 80 1) : List Nat).length) ∧
    scanStep [0xf9, 0xbe, 0xb4, 0xd9] ([0xf9, 0xbe, 0xb4, 0xd9, 5, 0, 0, 0] ++ List.replicate 80 1) 0 =
      ScanOutcome.record
        ((([0xf9, 0xbe, 0xb4, 0xd9, 5, 0, 0, 0] ++ List.replicate 80 1).drop 0).take 8)
        ((([0xf9, 0xbe, 0xb4, 0xd9, 5, 0, 0, 0] ++ List.replicate 80 1).drop (0 + 8)).take 80)
        ((leU32 ((([0xf9, 0xbe, 0xb4, 0xd9, 5, 0, 0, 0] ++ List.replicate 80 1).drop (0 + 4)).take 4) : Int) - 80)
        (0 + 8 + ((([0xf9, 0xbe, 0xb4, 0xd9, 5, 0, 0, 0] ++ List.replicate 80 1).drop (0 + 8)).take 80).length) :=
  ⟨by decide,
   c4_payload_size_no_abort [0xf9, 0xbe, 0xb4, 0xd9]
     ([0xf9, 0xbe, 0xb4, 0xd9, 5, 0, 0, 0] ++ List.replicate 80 1) 0 (by decide) (by decide)⟩

/-! Dictionary lemmas for the association-list model of Python dicts. -/

theorem dlookup_dinsert_self {α : Type} (k : Nat) (v : α) (l : List (Nat × α)) :
    dlookup k (dinsert k v l) = some v := by
  induction l with
  | nil => simp [dinsert, dlookup]
  | cons kv t ih =>
    obtain ⟨k', v'⟩ := kv
    by_cases h : k' = k
    · subst h
      simp [dinsert, dlookup]
    · simp [dinsert, dlookup, h, ih]

theorem dlookup_dinsert_ne {α : Type} (k k' : Nat) (v : α) (l : List (Nat × α)) (h : k ≠ k') :
    dlookup k' (dinsert k v l) = dlookup k' l := by
  induction l with
  | nil => simp [dinsert, dlookup, h]
  | cons kv t ih =>
    obtain ⟨k₀, v₀⟩ := kv
    by_cases h0 : k₀ = k
    · subst h0
      simp [dinsert, dlookup, h]
    · simp [dinsert, dlookup, h0, ih]

theorem dlookup_eq_none_of_not_mem {α : Type} (k : Nat) (l : List (Nat × α))
    (h : k ∉ l.map Prod.fst) : dlookup k l = none := by
  induction l with
  | nil => rfl
  | cons kv t ih =>
    obtain ⟨k₀, v₀⟩ := kv
    have h1 : k₀ ≠ k := by
      intro hh
      exact h (by simp [hh])
    have h2 : k ∉ t.map Prod.fst := by
      intro hm
      exact h (by simp [hm])
    simp [dlookup, h1, ih h2]

theorem dlookup_derase_ne {α : Type} (k k' : Nat) (l : List (Nat × α)) (h : k ≠ k') :
    dlookup k' (derase k l) = dlookup k' l := by
  induction l with
  | nil => rfl
  | cons kv t ih =>
    obtain ⟨k₀, v₀⟩ := kv
    by_cases h0 : k₀ = k
    · subst h0
      simp [derase, dlookup, h]
    · simp [derase, dlookup, h0, ih]

theorem dlookup_derase_self {α : Type} (k : Nat) (l : List (Nat × α))
    (hnd : (l.map Prod.fst).Nodup) : dlookup k (derase k l) = none := by
  induction l with
  | nil => rfl
  | cons kv t ih =>
    obtain ⟨k₀, v₀⟩ := kv
    simp at hnd
    by_cases h0 : k₀ = k
    · subst h0
      simp [derase]
      exact dlookup_eq_none_of_not_mem _ _ (by simpa using hnd.1)
    · simp [derase, dlookup, h0, ih hnd.2]

theorem length_derase_of_lookup {α : Type} (k : Nat) (l : List (Nat × α)) (v : α)
    (h : dlookup k l = some v) : (derase k l).length + 1 = l.length := by
  induction l with
  | nil => simp [dlookup] at h
  | cons kv t ih =>
    obtain ⟨k₀, v₀⟩ := kv
    by_cases h0 : k₀ = k
    · subst h0
      simp [derase]
    · simp [dlookup, h0] at h
      have hih := ih h
      simp [derase, h0]
      omega

theorem keys_dinsert {α : Type} (k : Nat) (v : α) (l : List (Nat × α)) :
    (dinsert k v l).map Prod.fst = if k ∈ l.map Prod.fst then l.map Prod.fst
      else l.map Prod.fst ++ [k] := by
  induction l with
  | nil => simp [dinsert]
  | cons kv t ih =>
    obtain ⟨k₀, v₀⟩ := kv
    by_cases h0 : k₀ = k
    · subst h0
      simp [dinsert]
    · have h0' : ¬ k = k₀ := fun hh => h0 hh.symm
      by_cases hmem : k ∈ t.map Prod.fst
      · simp [dinsert, h0, ih, hmem, h0']
      · simp [dinsert, h0, ih, hmem, h0']

theorem nodupKeys_dinsert {α : Type} (k : Nat) (v : α) (l : List (Nat × α))
    (h : (l.map Prod.fst).Nodup) : ((dinsert k v l).map Prod.fst).Nodup := by
  rw [keys_dinsert]
  by_cases hmem : k ∈ l.map Prod.fst
  · simpa [hmem] using h
  · simp only [hmem, if_false]
    rw [List.nodup_append]
    refine ⟨h, List.nodup_singleton k, ?_⟩
    intro a ha hb
    simp at hb
    subst hb
    exact hmem ha

theorem derase_sublist {α : Type} (k : Nat) (l : List (Nat × α)) :
    List.Sublist (derase k l) l := by
  induction l with
  | nil => simp [derase]
  | cons kv t ih =>
    obtain ⟨k₀, v₀⟩ := kv
    by_cases h0 : k₀ = k
    · subst h0
      simp [derase]
    · simpa [derase, h0] using ih.cons₂ (k₀, v₀)

theorem nodupKeys_derase {α : Type} (k : Nat) (l : List (Nat × α))
    (h : (l.map Prod.fst).Nodup) : ((derase k l).map Prod.fst).Nodup :=
  ((derase_sublist k l).map Prod.fst).nodup h

theorem eq_nil_of_dlookup_none {α : Type} (l : List (Nat × α))
    (h : ∀ k, dlookup k l = none) : l = [] := by
  cases l with
  | nil => rfl
  | cons kv t =>
    obtain ⟨k₀, v₀⟩ := kv
    have := h k₀
    simp [dlookup] at this

/-- Heights carried by a list of records: the values `gaiamap` resolves the
records' hashes to. -/
def heightsOf (rs : List InRec) : List Nat := rs.map InRec.height

theorem findByHeight_self (rs : List InRec) (hnd : (heightsOf rs).Nodup) (r : InRec)
    (hr : r ∈ rs) : findByHeight rs r.height = some r := by
  induction rs with
  | nil => cases hr
  | cons r₀ t ih =>
    have hnd' : (heightsOf t).Nodup := by
      simp [heightsOf] at hnd ⊢
      exact hnd.2
    rcases List.mem_cons.mp hr with rfl | hmem
    · simp [findByHeight, List.find?]
    · by_cases hh : r₀.height = r.height
      · exfalso
        simp [heightsOf] at hnd
        exact hnd.1 r hmem hh.symm
      · unfold findByHeight
        rw [List.find?_cons_of_neg _ (by simp [hh])]
        exact ih hnd' hmem

theorem findByHeight_height (rs : List InRec) (h : Nat) (r : InRec)
    (hf : findByHeight rs h = some r) : r.height = h := by
  have := List.find?_some hf
  simpa using this

theorem findByHeight_isSome_of_mem (rs : List InRec) (h : Nat) (hmem : h ∈ heightsOf rs) :
    ∃ r, findByHeight rs h = some r := by
  induction rs with
  | nil => simp [heightsOf] at hmem
  | cons r₀ t ih =>
    by_cases hh : r₀.height = h
    · refine ⟨r₀, ?_⟩
      unfold findByHeight
      rw [List.find?_cons_of_pos]
      simp [hh]
    · have hmem' : h ∈ heightsOf t := by
        simp [heightsOf] at hmem ⊢
        rcases hmem with h1 | h1
        · exact absurd h1.symm hh
        · exact h1
      obtain ⟨r, hr⟩ := ih hmem'
      refine ⟨r, ?_⟩
      unfold findByHeight
      rw [List.find?_cons_of_neg]
      · exact hr
      · simp [hh]

/-- Invariant of the reorder state that holds between drain iterations,
relative to the full input `rs` and the processed prefix `seen`:
the output stream is the records of heights `0 .. gaiaCountOut - 1` in
ascending order; the extent map holds exactly the seen heights at or above
the cursor; every height below the cursor has been seen; cached payloads
belong to their heights; and both dicts have distinct keys. -/
def EngMid (rs seen : List InRec) (st : EngState) : Prop :=
  st.output = (List.range st.gaiaCountOut).filterMap (findByHeight rs) ∧
  (∀ h, h ∈ heightsOf seen → st.gaiaCountOut ≤ h →
      dlookup h st.blockExtents = findByHeight rs h) ∧
  (∀ h, (h ∉ heightsOf seen ∨ h < st.gaiaCountOut) → dlookup h st.blockExtents = none) ∧
  (∀ h : Nat, h < st.gaiaCountOut → h ∈ heightsOf seen) ∧
  (∀ h raw, dlookup h st.outOfOrderData = some raw →
      ∃ r, findByHeight rs h = some r ∧ raw = r.payload) ∧
  (st.blockExtents.map Prod.fst).Nodup ∧
  (st.outOfOrderData.map Prod.fst).Nodup

/-- Invariant between record steps: additionally the cursor height is not
pending in the extent map (the drain loop has run to completion). -/
def EngInv (rs seen : List InRec) (st : EngState) : Prop :=
  EngMid rs seen st ∧ dlookup st.gaiaCountOut st.blockExtents = none

theorem drain_mid_step (rs seen : List InRec) (st : EngState) (ext : InRec)
    (C' : List (Nat × List Nat)) (sz' : Nat)
    (hex : dlookup st.gaiaCountOut st.blockExtents = some ext)
    (hmid : EngMid rs seen st)
    (hC' : ∀ h raw, dlookup h C' = some raw →
        ∃ r, findByHeight rs h = some r ∧ raw = r.payload)
    (hndC' : (C'.map Prod.fst).Nodup) :
    EngMid rs seen
      ⟨st.gaiaCountOut + 1, derase st.gaiaCountOut st.blockExtents, C', sz',
        st.output ++ [ext]⟩ := by
  obtain ⟨ha, hb, hc, he, hf, hndE, hndC⟩ := hmid
  have hseen : st.gaiaCountOut ∈ heightsOf seen := by
    by_contra hns
    rw [hc _ (Or.inl hns)] at hex
    cases hex
  have hfind : findByHeight rs st.gaiaCountOut = some ext := by
    rw [← hb _ hseen (le_refl _)]
    exact hex
  unfold EngMid
  dsimp only
  refine ⟨?_, ?_, ?_, ?_, ?_, ?_, ?_⟩
  · rw [List.range_succ, List.filterMap_append, ← ha]
    simp [hfind]
  · intro h hs hle
    have hne : st.gaiaCountOut ≠ h := by omega
    rw [dlookup_derase_ne _ _ _ hne]
    exact hb h hs (by omega)
  · intro h hor
    by_cases hne : st.gaiaCountOut = h
    · subst hne
      exact dlookup_derase_self _ _ hndE
    · rw [dlookup_derase_ne _ _ _ hne]
      apply hc
      rcases hor with h1 | h1
      · exact Or.inl h1
      · exact Or.inr (by omega)
  · intro h hlt
    by_cases hne : h = st.gaiaCountOut
    · subst hne
      exact hseen
    · exact he h (by omega)
  · exact hC'
  · exact nodupKeys_derase _ _ hndE
  · exact hndC'

theorem drainLoop_inv (rs seen : List InRec) :
    ∀ (fuel : Nat) (st : EngState), st.blockExtents.length ≤ fuel → EngMid rs seen st →
      EngInv rs seen (drainLoop fuel st) := by
  intro fuel
  induction fuel with
  | zero =>
    intro st hlen hmid
    have hext : st.blockExtents = [] := List.eq_nil_of_length_eq_zero (Nat.le_zero.mp hlen)
    refine ⟨hmid, ?_⟩
    show dlookup st.gaiaCountOut st.blockExtents = none
    rw [hext]
    rfl
  | succ fuel ih =>
    intro st hlen hmid
    cases hex : dlookup st.gaiaCountOut st.blockExtents with
    | none =>
      simp only [drainLoop, hex]
      exact ⟨hmid, hex⟩
    | some ext =>
      have hlen' : (derase st.gaiaCountOut st.blockExtents).length ≤ fuel := by
        have := length_derase_of_lookup _ _ _ hex
        omega
      have hfind : findByHeight rs st.gaiaCountOut = some ext := by
        obtain ⟨ha, hb, hc, he, hf, hndE, hndC⟩ := hmid
        have hseen : st.gaiaCountOut ∈ heightsOf seen := by
          by_contra hns
          rw [hc _ (Or.inl hns)] at hex
          cases hex
        rw [← hb _ hseen (le_refl _)]
        exact hex
      have heta : ∀ raw, raw = ext.payload →
          (⟨ext.height, ext.inhdr, ext.gaiahdr, raw⟩ : InRec) = ext := by
        intro raw hr
        subst hr
        rfl
      cases hca : dlookup st.gaiaCountOut st.outOfOrderData with
      | none =>
        simp only [drainLoop, hex, hca]
        apply ih _ hlen'
        have := drain_mid_step rs seen st ext st.outOfOrderData st.outOfOrderSize hex hmid
          hmid.2.2.2.2.1 hmid.2.2.2.2.2.2
        simpa [writeRec, heta ext.payload rfl] using this
      | some raw =>
        have hraw : raw = ext.payload := by
          obtain ⟨r', hr', hraw'⟩ := hmid.2.2.2.2.1 _ _ hca
          rw [hfind] at hr'
          cases hr'
          exact hraw'
        simp only [drainLoop, hex, hca]
        apply ih _ hlen'
        have hC' : ∀ h r2, dlookup h (derase st.gaiaCountOut st.outOfOrderData) = some r2 →
            ∃ r, findByHeight rs h = some r ∧ r2 = r.payload := by
          intro h r2 hl
          by_cases hne : st.gaiaCountOut = h
          · subst hne
            rw [dlookup_derase_self _ _ hmid.2.2.2.2.2.2] at hl
            cases hl
          · rw [dlookup_derase_ne _ _ _ hne] at hl
            exact hmid.2.2.2.2.1 _ _ hl
        have hndC' := nodupKeys_derase st.gaiaCountOut st.outOfOrderData hmid.2.2.2.2.2.2
        have := drain_mid_step rs seen st ext (derase st.gaiaCountOut st.outOfOrderData)
          (st.outOfOrderSize - raw.length) hex hmid hC' hndC'
        simpa [writeRec, heta raw hraw] using this

theorem heightsOf_append (a b : List InRec) :
    heightsOf (a ++ b) = heightsOf a ++ heightsOf b := by
  simp [heightsOf]

theorem engStep_inv (cacheSz : Nat) (rs seen rest : List InRec) (r : InRec) (st : EngState)
    (hrs : rs = seen ++ r :: rest)
    (hnd : (heightsOf rs).Nodup)
    (hinv : EngInv rs seen st) :
    EngInv rs (seen ++ [r]) (engStep cacheSz st r) := by
  obtain ⟨⟨ha, hb, hc, he, hf, hndE, hndC⟩, hstable⟩ := hinv
  have hrmem : r ∈ rs := by rw [hrs]; simp
  have hfr : findByHeight rs r.height = some r := findByHeight_self rs hnd r hrmem
  have hnotseen : r.height ∉ heightsOf seen := by
    intro hmem
    have hsplit : heightsOf rs = heightsOf seen ++ (r.height :: heightsOf rest) := by
      rw [hrs]
      simp [heightsOf]
    rw [hsplit, List.nodup_append] at hnd
    exact hnd.2.2 hmem (List.mem_cons_self _ _)
  have hseenmem : ∀ h, h ∈ heightsOf (seen ++ [r]) ↔ h ∈ heightsOf seen ∨ h = r.height := by
    intro h
    rw [heightsOf_append]
    simp [heightsOf]
  by_cases hcase : st.gaiaCountOut = r.height
  · -- in-order branch: write the record, then drain
    have heta : (⟨r.height, r.inhdr, r.gaiahdr, r.payload⟩ : InRec) = r := rfl
    have hmid' : EngMid rs (seen ++ [r])
        (writeRec st r.height r.inhdr r.gaiahdr r.payload) := by
      unfold writeRec EngMid
      dsimp only
      rw [heta]
      refine ⟨?_, ?_, ?_, ?_, hf, hndE, hndC⟩
      · rw [List.range_succ, List.filterMap_append, ← ha, hcase]
        simp [hfr]
      · intro h hs hle
        rcases (hseenmem h).mp hs with h1 | h1
        · exact hb h h1 (by omega)
        · omega
      · intro h hor
        rcases hor with h1 | h1
        · apply hc
          left
          intro hmem
          exact h1 ((hseenmem h).mpr (Or.inl hmem))
        · by_cases hh : h = st.gaiaCountOut
          · subst hh
            exact hstable
          · exact hc h (Or.inr (by omega))
      · intro h hlt
        apply (hseenmem h).mpr
        by_cases hh : h = st.gaiaCountOut
        · right
          omega
        · left
          exact he h (by omega)
    simp only [engStep, hcase, if_pos]
    exact drainLoop_inv rs (seen ++ [r]) _ _ (le_refl _) hmid'
  · -- out-of-order branch
    have hgt : st.gaiaCountOut < r.height := by
      rcases Nat.lt_trichotomy st.gaiaCountOut r.height with h1 | h1 | h1
      · exact h1
      · exact absurd h1 hcase
      · exact absurd (he r.height h1) hnotseen
    have hcore : ∀ (C2 : List (Nat × List Nat)) (sz2 : Nat),
        (∀ h raw, dlookup h C2 = some raw →
            ∃ q, findByHeight rs h = some q ∧ raw = q.payload) →
        (C2.map Prod.fst).Nodup →
        EngInv rs (seen ++ [r])
          ⟨st.gaiaCountOut, dinsert r.height r st.blockExtents, C2, sz2, st.output⟩ := by
      intro C2 sz2 hfC hndC2
      refine ⟨⟨?_, ?_, ?_, ?_, ?_, ?_, ?_⟩, ?_⟩ <;> dsimp only
      · exact ha
      · intro h hs hle
        by_cases hh : h = r.height
        · subst hh
          rw [dlookup_dinsert_self, hfr]
        · rw [dlookup_dinsert_ne _ _ _ _ (fun hx => hh hx.symm)]
          rcases (hseenmem h).mp hs with h1 | h1
          · exact hb h h1 hle
          · exact absurd h1 hh
      · intro h hor
        have hh : h ≠ r.height := by
          rcases hor with h1 | h1
          · intro hx
            exact h1 ((hseenmem h).mpr (Or.inr hx))
          · omega
        rw [dlookup_dinsert_ne _ _ _ _ (fun hx => hh hx.symm)]
        apply hc
        rcases hor with h1 | h1
        · left
          intro hmem
          exact h1 ((hseenmem h).mpr (Or.inl hmem))
        · exact Or.inr h1
      · intro h hlt
        exact (hseenmem h).mpr (Or.inl (he h hlt))
      · exact hfC
      · exact nodupKeys_dinsert _ _ _ hndE
      · exact hndC2
      · rw [dlookup_dinsert_ne _ _ _ _ (fun hx => hcase hx.symm)]
        exact hstable
    by_cases hsz : st.outOfOrderSize < cacheSz
    · simp only [engStep, hcase, if_neg, if_pos hsz]
      apply hcore
      · intro h raw hl
        by_cases hh : h = r.height
        · subst hh
          rw [dlookup_dinsert_self] at hl
          cases hl
          exact ⟨r, hfr, rfl⟩
        · rw [dlookup_dinsert_ne _ _ _ _ (fun hx => hh hx.symm)] at hl
          exact hf _ _ hl
      · exact nodupKeys_dinsert _ _ _ hndC
    · simp only [engStep, hcase, if_neg, if_neg hsz]
      exact hcore st.outOfOrderData st.outOfOrderSize hf hndC

theorem engSkip_inv (N : Nat) (rs seen : List InRec) (r : InRec) (st : EngState)
    (hge : ¬ st.gaiaCountOut < N) (hltr : r.height < N)
    (hinv : EngInv rs seen st) :
    EngInv rs (seen ++ [r]) st := by
  obtain ⟨⟨ha, hb, hc, he, hf, hndE, hndC⟩, hstable⟩ := hinv
  have hseenmem : ∀ h, h ∈ heightsOf (seen ++ [r]) ↔ h ∈ heightsOf seen ∨ h = r.height := by
    intro h
    rw [heightsOf_append]
    simp [heightsOf]
  refine ⟨⟨ha, ?_, ?_, ?_, hf, hndE, hndC⟩, hstable⟩
  · intro h hs hle
    rcases (hseenmem h).mp hs with h1 | h1
    · exact hb h h1 hle
    · omega
  · intro h hor
    apply hc
    rcases hor with h1 | h1
    · left
      intro hmem
      exact h1 ((hseenmem h).mpr (Or.inl hmem))
    · exact Or.inr h1
  · intro h hlt
    exact (hseenmem h).mpr (Or.inl (he h hlt))

theorem engInv_init (rs : List InRec) : EngInv rs [] initEng := by
  refine ⟨⟨rfl, ?_, ?_, ?_, ?_, ?_, ?_⟩, rfl⟩
  · intro h hs _
    simp [heightsOf] at hs
  · intro h _
    rfl
  · intro h hlt
    simp [initEng] at hlt
  · intro h raw hl
    simp [initEng, dlookup] at hl
  · simp [initEng]
  · simp [initEng]

theorem engFold_inv (N cacheSz : Nat) (rs : List InRec)
    (hnd : (heightsOf rs).Nodup) (hlt : ∀ r ∈ rs, r.height < N) :
    ∀ (suf seen : List InRec) (st : EngState), rs = seen ++ suf → EngInv rs seen st →
      EngInv rs rs
        (suf.foldl (fun st r => if st.gaiaCountOut < N then engStep cacheSz st r else st) st) := by
  intro suf
  induction suf with
  | nil =>
    intro seen st hsplit hinv
    rw [List.foldl_nil]
    have h2 : rs = seen := by simpa using hsplit
    subst h2
    exact hinv
  | cons r rest ih =>
    intro seen st hsplit hinv
    rw [List.foldl_cons]
    have hsplit' : rs = (seen ++ [r]) ++ rest := by rw [hsplit]; simp
    by_cases hg : st.gaiaCountOut < N
    · dsimp only
      rw [if_pos hg]
      exact ih (seen ++ [r]) _ hsplit' (engStep_inv cacheSz rs seen rest r st hsplit hnd hinv)
    · dsimp only
      rw [if_neg hg]
      exact ih (seen ++ [r]) st hsplit'
        (engSkip_inv N rs seen r st hg (hlt r (by rw [hsplit]; simp)) hinv)

theorem engRun_final (N cacheSz : Nat) (rs : List InRec)
    (hperm : (heightsOf rs).Perm (List.range N)) :
    (engRun N cacheSz rs).gaiaCountOut = N ∧
    (engRun N cacheSz rs).blockExtents = [] ∧
    (engRun N cacheSz rs).output = (List.range N).filterMap (findByHeight rs) := by
  have hnd : (heightsOf rs).Nodup := hperm.nodup_iff.mpr (List.nodup_range N)
  have hmem : ∀ h, h ∈ heightsOf rs ↔ h < N := by
    intro h
    rw [hperm.mem_iff, List.mem_range]
  have hlt : ∀ r ∈ rs, r.height < N := by
    intro r hr
    exact (hmem r.height).mp (List.mem_map.mpr ⟨r, hr, rfl⟩)
  have hinv : EngInv rs rs (engRun N cacheSz rs) := by
    unfold engRun
    exact engFold_inv N cacheSz rs hnd hlt rs [] initEng (by simp) (engInv_init rs)
  obtain ⟨⟨ha, hb, hc, he, hf, hndE, hndC⟩, hstable⟩ := hinv
  have hcnt : (engRun N cacheSz rs).gaiaCountOut = N := by
    rcases Nat.lt_trichotomy (engRun N cacheSz rs).gaiaCountOut N with h1 | h1 | h1
    · exfalso
      have hcm : (engRun N cacheSz rs).gaiaCountOut ∈ heightsOf rs := (hmem _).mpr h1
      obtain ⟨q, hq⟩ := findByHeight_isSome_of_mem rs _ hcm
      rw [hb _ hcm (le_refl _), hq] at hstable
      cases hstable
    · exact h1
    · exfalso
      have := (hmem N).mp (he N h1)
      omega
  refine ⟨hcnt, ?_, ?_⟩
  · apply eq_nil_of_dlookup_none
    intro k
    by_cases hk : k ∈ heightsOf rs
    · exact hc k (Or.inr (by rw [hcnt]; exact (hmem k).mp hk))
    · exact hc k (Or.inl hk)
  · rw [ha, hcnt]

theorem drainLoop_size_le :
    ∀ (fuel : Nat) (st : EngState), (drainLoop fuel st).outOfOrderSize ≤ st.outOfOrderSize := by
  intro fuel
  induction fuel with
  | zero =>
    intro st
    exact le_refl _
  | succ fuel ih =>
    intro st
    cases hex : dlookup st.gaiaCountOut st.blockExtents with
    | none =>
      simp [drainLoop, hex]
    | some ext =>
      cases hca : dlookup st.gaiaCountOut st.outOfOrderData with
      | none =>
        simp only [drainLoop, hex, hca]
        exact ih _
      | some raw =>
        simp only [drainLoop, hex, hca]
        refine le_trans (ih _) ?_
        show st.outOfOrderSize - raw.length ≤ st.outOfOrderSize
        omega

theorem engStep_size (cacheSz P : Nat) (st : EngState) (r : InRec)
    (hr : r.payload.length ≤ P)
    (hst : st.outOfOrderSize ≤ (cacheSz - 1) + P) :
    (engStep cacheSz st r).outOfOrderSize ≤ (cacheSz - 1) + P := by
  by_cases hcase : st.gaiaCountOut = r.height
  · simp only [engStep, hcase, if_pos]
    exact le_trans (drainLoop_size_le _ _) hst
  · by_cases hsz : st.outOfOrderSize < cacheSz
    · simp only [engStep, hcase, if_neg, if_pos hsz]
      show st.outOfOrderSize + r.payload.length ≤ (cacheSz - 1) + P
      omega
    · simp only [engStep, hcase, if_neg, if_neg hsz]
      exact hst

/-- C1: for any permutation of N well-formed input records whose hashes
resolve to the index heights 0..N-1 (each exactly once), the engine's
output stream is the records in strict ascending height order — the record
of height 0, then 1, ..., then N-1 — independent of arrival order and of
the cache ceiling.  Emission is gated solely by `gaiaCountOut`. -/
theorem c1_order_invariant (N cacheSz : Nat) (rs : List InRec)
    (hperm : (heightsOf rs).Perm (List.range N)) :
    (engRun N cacheSz rs).output = (List.range N).filterMap (findByHeight rs) :=
  (engRun_final N cacheSz rs hperm).2.2

/-- C1 witness: three records arriving in height order 2, 0, 1 are written
out in height order 0, 1, 2. -/
theorem c1_witness :
    (heightsOf [⟨2, [1], [2], [3]⟩, ⟨0, [4], [5], [6]⟩, ⟨1, [7], [8], [9]⟩]).Perm
      (List.range 3) ∧
    (engRun 3 1000 [⟨2, [1], [2], [3]⟩, ⟨0, [4], [5], [6]⟩, ⟨1, [7], [8], [9]⟩]).output =
      (List.range 3).filterMap
        (findByHeight [⟨2, [1], [2], [3]⟩, ⟨0, [4], [5], [6]⟩, ⟨1, [7], [8], [9]⟩]) :=
  ⟨by decide,
   c1_order_invariant 3 1000 [⟨2, [1], [2], [3]⟩, ⟨0, [4], [5], [6]⟩, ⟨1, [7], [8], [9]⟩]
     (by decide)⟩

/-- C2 counterexample: with a cache ceiling of 10 bytes and a single
out-of-order record carrying a 100-byte payload, the insertion is allowed
(the pre-insertion total 0 is below the ceiling), after which the running
total is 100, which exceeds the configured ceiling 10 in a reachable state
(the state after processing the whole input). -/
theorem c2_counterexample :
    (engRun 2 10 [⟨1, [], [], List.replicate 100 0⟩]).outOfOrderSize = 100 ∧
    ¬ ((engRun 2 10 [⟨1, [], [], List.replicate 100 0⟩]).outOfOrderSize ≤ 10) := by
  constructor
  · decide
  · decide

/-- C2 amended: every cache insertion happens only when the running total
is strictly below the ceiling, so the total never exceeds
`(ceiling - 1) + P` where `P` bounds the payload size of every input
record; the total can overshoot the ceiling by up to one payload.  States
between record steps are exactly `engRun` applied to prefixes of the
input, so this bounds every reachable inter-record state. -/
theorem c2_cache_bound (N cacheSz P : Nat) (rs : List InRec)
    (hP : ∀ r ∈ rs, r.payload.length ≤ P) :
    (engRun N cacheSz rs).outOfOrderSize ≤ (cacheSz - 1) + P := by
  unfold engRun
  have hgen : ∀ (l : List InRec) (st : EngState), (∀ r ∈ l, r.payload.length ≤ P) →
      st.outOfOrderSize ≤ (cacheSz - 1) + P →
      (l.foldl (fun st r => if st.gaiaCountOut < N then engStep cacheSz st r else st)
        st).outOfOrderSize ≤ (cacheSz - 1) + P := by
    intro l
    induction l with
    | nil =>
      intro st _ h
      simpa using h
    | cons r rest ih =>
      intro st hl hst
      rw [List.foldl_cons]
      apply ih _ (fun q hq => hl q (by simp [hq]))
      dsimp only
      by_cases hg : st.gaiaCountOut < N
      · rw [if_pos hg]
        exact engStep_size cacheSz P st r (hl r (by simp)) hst
      · rw [if_neg hg]
        exact hst
  exact hgen rs initEng hP (by simp [initEng])

/-- C2 witness: the amended bound at a concrete run — ceiling 10, single
out-of-order record with a 3-byte payload, payload bound 5. -/
theorem c2_witness :
    (∀ r ∈ [(⟨1, [], [], [1, 2, 3]⟩ : InRec)], r.payload.length ≤ 5) ∧
    (engRun 2 10 [⟨1, [], [], [1, 2, 3]⟩]).outOfOrderSize ≤ (10 - 1) + 5 :=
  ⟨by decide, c2_cache_bound 2 10 5 [⟨1, [], [], [1, 2, 3]⟩] (by decide)⟩

/-- C9 counterexample: the input `[height 0, height 0 again, height 1]`
(a duplicate record for height 0) sees every height `0..1`, and the run
ends with `gaiaCountOut = 2 = N`, but the extent map still holds the stale
duplicate entry for height 0, so it is not empty. -/
theorem c9_counterexample :
    (∀ h < 2, h ∈ heightsOf [⟨0, [], [], []⟩, ⟨0, [], [], []⟩, ⟨1, [], [], []⟩]) ∧
    (engRun 2 0 [⟨0, [], [], []⟩, ⟨0, [], [], []⟩, ⟨1, [], [], []⟩]).gaiaCountOut = 2 ∧
    (engRun 2 0 [⟨0, [], [], []⟩, ⟨0, [], [], []⟩, ⟨1, [], [], []⟩]).blockExtents ≠ [] := by
  refine ⟨by decide, by decide, by decide⟩

/-- C9 amended: after processing all input, if the heights of the input
records are exactly `0..N-1`, each occurring exactly once (a permutation),
then the output cursor `gaiaCountOut` equals `N` and the extent map
`blockExtents` is empty.  (Mere coverage is insufficient: a duplicate
record for an already-written height is parked in the extent map and never
consumed.) -/
theorem c9_drain_completeness (N cacheSz : Nat) (rs : List InRec)
    (hperm : (heightsOf rs).Perm (List.range N)) :
    (engRun N cacheSz rs).gaiaCountOut = N ∧ (engRun N cacheSz rs).blockExtents = [] :=
  ⟨(engRun_final N cacheSz rs hperm).1, (engRun_final N cacheSz rs hperm).2.1⟩

/-- C9 witness: two records arriving as heights 1, 0; the run ends with
cursor 2 and an empty extent map. -/
theorem c9_witness :
    (heightsOf [⟨1, [], [], [5]⟩, ⟨0, [], [], [6]⟩]).Perm (List.range 2) ∧
    (engRun 2 7 [⟨1, [], [], [5]⟩, ⟨0, [], [], [6]⟩]).gaiaCountOut = 2 ∧
    (engRun 2 7 [⟨1, [], [], [5]⟩, ⟨0, [], [], [6]⟩]).blockExtents = [] :=
  ⟨by decide,
   (c9_drain_completeness 2 7 [⟨1, [], [], [5]⟩, ⟨0, [], [], [6]⟩] (by decide)).1,
   (c9_drain_completeness 2 7 [⟨1, [], [], [5]⟩, ⟨0, [], [], [6]⟩] (by decide)).2⟩

/-- Records written so far: the finished files' contents in order followed
by the current file's contents. -/
def writtenOf (st : WState) : List WRec :=
  (st.closed.map Prod.fst).flatten ++ (st.outF).getD []

/-- Running high timestamp over a record sequence, with the exact update of
`writeBlock`: `if gaiaTS > self.highTS: self.highTS = gaiaTS`. -/
def maxTS (a : Nat) (l : List WRec) : Nat :=
  l.foldl (fun acc q => if acc < q.ts then q.ts else acc) a

/-- Stamps a run of finished files the way rotation does: each file's
recorded mtime is the running high timestamp accumulated over ALL files so
far (since the start of the run), not just its own records. -/
def stampFiles (cfg : WCfg) (a : Nat) : List (List WRec) → List (List WRec × Option Nat)
  | [] => []
  | f :: rest =>
    (f, if cfg.setFileTime then some (maxTS a f) else none) :: stampFiles cfg (maxTS a f) rest

theorem maxTS_append (a : Nat) (l₁ l₂ : List WRec) :
    maxTS a (l₁ ++ l₂) = maxTS (maxTS a l₁) l₂ := by
  simp [maxTS, List.foldl_append]

theorem maxTS_snoc (a : Nat) (l : List WRec) (r : WRec) :
    maxTS a (l ++ [r]) = if maxTS a l < r.ts then r.ts else maxTS a l := by
  simp [maxTS, List.foldl_append]

theorem fileSize_append (f : List WRec) (r : WRec) :
    fileSize (f ++ [r]) = fileSize f + r.sizeOnDisk := by
  simp [fileSize]

theorem stampFiles_length (cfg : WCfg) :
    ∀ (files : List (List WRec)) (a : Nat), (stampFiles cfg a files).length = files.length := by
  intro files
  induction files with
  | nil => intro a; rfl
  | cons f rest ih => intro a; simp [stampFiles, ih]

theorem stampFiles_snoc (cfg : WCfg) :
    ∀ (files : List (List WRec)) (a : Nat) (f : List WRec),
      stampFiles cfg a (files ++ [f]) =
        stampFiles cfg a files ++
          [(f, if cfg.setFileTime then some (maxTS a (files.flatten ++ f)) else none)] := by
  intro files
  induction files with
  | nil =>
    intro a f
    simp [stampFiles]
  | cons g rest ih =>
    intro a f
    show (g, if cfg.setFileTime = true then some (maxTS a g) else none)
        :: stampFiles cfg (maxTS a g) (rest ++ [f]) = _
    rw [ih (maxTS a g) f]
    simp only [List.cons_append, List.flatten_cons, List.append_assoc, maxTS_append]
    rw [show stampFiles cfg a (g :: rest)
        = (g, if cfg.setFileTime = true then some (maxTS a g) else none)
          :: stampFiles cfg (maxTS a g) rest from rfl, List.cons_append]

theorem stampFiles_get (cfg : WCfg) (hset : cfg.setFileTime = true) :
    ∀ (files : List (List WRec)) (a : Nat) (i : Nat)
      (hi : i < (stampFiles cfg a files).length),
      ((stampFiles cfg a files).get ⟨i, hi⟩).2 =
        some (maxTS a ((files.take (i + 1)).flatten)) := by
  intro files
  induction files with
  | nil =>
    intro a i hi
    simp [stampFiles] at hi
  | cons f rest ih =>
    intro a i hi
    cases i with
    | zero =>
      show (if cfg.setFileTime = true then some (maxTS a f) else none)
          = some (maxTS a (((f :: rest).take (0 + 1)).flatten))
      rw [hset]
      simp
    | succ i =>
      have hi' : i < (stampFiles cfg (maxTS a f) rest).length := by
        rw [stampFiles_length] at hi ⊢
        simpa using hi
      show ((stampFiles cfg (maxTS a f) rest).get ⟨i, hi'⟩).2
          = some (maxTS a (((f :: rest).take (i + 1 + 1)).flatten))
      rw [ih (maxTS a f) i hi']
      simp only [List.take_succ_cons, List.flatten_cons]
      rw [maxTS_append]

theorem stampFiles_map_fst (cfg : WCfg) :
    ∀ (files : List (List WRec)) (a : Nat),
      (stampFiles cfg a files).map Prod.fst = files := by
  intro files
  induction files with
  | nil => intro a; rfl
  | cons f rest ih =>
    intro a
    simp [stampFiles, ih]

/-- Invariant of the writer state.  The size clauses are conditional on
directory-output mode (single-file mode has no size rotation); the stamp
clause says the finished-file list is exactly what `stampFiles` produces,
i.e. every recorded mtime is the running maximum since the start of the
run. -/
def WInv (cfg : WCfg) (st : WState) : Prop :=
  (∀ f os, (f, os) ∈ st.closed →
      cfg.fileOutput = false → fileSize f ≤ cfg.maxOutSz ∨ f.length = 1) ∧
  (∀ f, st.outF = some f →
      st.outsz = fileSize f ∧
        (cfg.fileOutput = false → fileSize f ≤ cfg.maxOutSz ∨ f.length = 1)) ∧
  (st.outF = none → st.outsz = 0) ∧
  st.highTS = maxTS initialHighTS (writtenOf st) ∧
  st.closed = stampFiles cfg initialHighTS (st.closed.map Prod.fst)

theorem WInv_init (cfg : WCfg) : WInv cfg (initW cfg) := by
  refine ⟨?_, ?_, ?_, ?_, ?_⟩
  · intro f os hmem
    simp [initW] at hmem
  · intro f hf
    simp [initW] at hf
  · intro _
    rfl
  · show initialHighTS = maxTS initialHighTS (writtenOf (initW cfg))
    simp [writtenOf, initW, maxTS]
  · show ([] : List (List WRec × Option Nat)) = stampFiles cfg initialHighTS ([].map Prod.fst)
    rfl

theorem closeCurrent_winv (cfg : WCfg) (st : WState) (f : List WRec)
    (houtF : st.outF = some f) (hinv : WInv cfg st) :
    WInv cfg (closeCurrent cfg st f) ∧ writtenOf (closeCurrent cfg st f) = writtenOf st := by
  obtain ⟨W1, W2, W3, W4, W5⟩ := hinv
  have hw : writtenOf st = (st.closed.map Prod.fst).flatten ++ f := by
    unfold writtenOf
    rw [houtF]
    rfl
  have hwritten : writtenOf (closeCurrent cfg st f) = writtenOf st := by
    unfold writtenOf closeCurrent
    dsimp only
    rw [houtF]
    simp
  refine ⟨⟨?_, ?_, ?_, ?_, ?_⟩, hwritten⟩
  · intro g os hmem hdir
    rcases List.mem_append.mp hmem with hm | hm
    · exact W1 g os hm hdir
    · simp at hm
      rw [hm.1]
      exact (W2 f houtF).2 hdir
  · intro g hg
    simp [closeCurrent] at hg
  · intro _
    rfl
  · show st.highTS = maxTS initialHighTS (writtenOf (closeCurrent cfg st f))
    rw [hwritten, ← W4]
  · show st.closed ++ [(f, if cfg.setFileTime then some st.highTS else none)]
      = stampFiles cfg initialHighTS
          ((st.closed ++ [(f, if cfg.setFileTime then some st.highTS else none)]).map Prod.fst)
    rw [List.map_append]
    show _ = stampFiles cfg initialHighTS (st.closed.map Prod.fst ++ [f])
    rw [stampFiles_snoc, ← W5]
    have : st.highTS = maxTS initialHighTS ((st.closed.map Prod.fst).flatten ++ f) := by
      rw [W4, hw]
    rw [this]

theorem sizeRotate_inv (cfg : WCfg) (st st1 : WState) (bs : Nat)
    (h : sizeRotate cfg st bs = some st1) (hinv : WInv cfg st) :
    WInv cfg st1 ∧ writtenOf st1 = writtenOf st ∧
      (cfg.fileOutput = false → ∀ f, st1.outF = some f → st1.outsz + bs ≤ cfg.maxOutSz) := by
  unfold sizeRotate at h
  by_cases hcond : cfg.fileOutput = false ∧ cfg.maxOutSz < st.outsz + bs
  · rw [if_pos hcond] at h
    cases houtF : st.outF with
    | none =>
      rw [houtF] at h
      cases h
    | some f =>
      rw [houtF] at h
      injection h with h'
      subst h'
      obtain ⟨hinv', hw'⟩ := closeCurrent_winv cfg st f houtF hinv
      refine ⟨hinv', hw', ?_⟩
      intro _ g hg
      simp [closeCurrent] at hg
  · rw [if_neg hcond] at h
    injection h with h'
    subst h'
    refine ⟨hinv, rfl, ?_⟩
    intro hdir f hf
    by_contra hlt
    exact hcond ⟨hdir, by omega⟩

theorem monthRotate_inv (cfg : WCfg) (st : WState) (d bs : Nat) (hinv : WInv cfg st)
    (hsz : cfg.fileOutput = false → ∀ f, st.outF = some f → st.outsz + bs ≤ cfg.maxOutSz) :
    WInv cfg (monthRotate cfg st d) ∧ writtenOf (monthRotate cfg st d) = writtenOf st ∧
      (cfg.fileOutput = false → ∀ f, (monthRotate cfg st d).outF = some f →
          (monthRotate cfg st d).outsz + bs ≤ cfg.maxOutSz) := by
  unfold monthRotate
  by_cases hcond : cfg.timestampSplit = true ∧ st.lastDate < d
  · rw [if_pos hcond]
    have hinv' : WInv cfg { st with lastDate := d } := hinv
    cases houtF : st.outF with
    | none =>
      dsimp only
      refine ⟨?_, ?_, ?_⟩
      · rw [← houtF]
        exact hinv'
      · rw [← houtF]
        rfl
      · intro hdir f hf
        simp at hf
    | some f =>
      dsimp only
      have houtF' : ({ st with lastDate := d } : WState).outF = some f := houtF
      obtain ⟨hc1, hc2⟩ := closeCurrent_winv cfg { st with lastDate := d } f houtF' hinv'
      refine ⟨?_, ?_, ?_⟩
      · rw [← houtF]
        exact hc1
      · rw [← houtF, hc2]
        rfl
      · intro hdir g hg
        simp [closeCurrent] at hg
  · rw [if_neg hcond]
    exact ⟨hinv, rfl, hsz⟩

theorem appendRec_winv (cfg : WCfg) (st2 : WState) (r : WRec) (hinv : WInv cfg st2)
    (hsz : cfg.fileOutput = false → ∀ f, st2.outF = some f →
        st2.outsz + r.sizeOnDisk ≤ cfg.maxOutSz) :
    WInv cfg (appendRec st2 r) ∧ writtenOf (appendRec st2 r) = writtenOf st2 ++ [r] := by
  obtain ⟨W1, W2, W3, W4, W5⟩ := hinv
  have hwr : writtenOf (appendRec st2 r) = writtenOf st2 ++ [r] := by
    unfold writtenOf appendRec
    dsimp only
    cases houtF : st2.outF <;> simp
  refine ⟨⟨W1, ?_, ?_, ?_, W5⟩, hwr⟩
  · intro f hf
    have hf' : some (((st2.outF).getD []) ++ [r]) = some f := hf
    injection hf' with hf'
    subst hf'
    constructor
    · show st2.outsz + r.sizeOnDisk = fileSize (((st2.outF).getD []) ++ [r])
      rw [fileSize_append]
      cases houtF : st2.outF with
      | none =>
        rw [W3 houtF]
        rfl
      | some g =>
        rw [(W2 g houtF).1]
        rfl
    · intro hdir
      cases houtF : st2.outF with
      | none =>
        right
        simp
      | some g =>
        left
        have h1 := (W2 g houtF).1
        have h2 := hsz hdir g houtF
        show fileSize (g ++ [r]) ≤ cfg.maxOutSz
        rw [fileSize_append]
        omega
  · intro hnone
    have : (some (((st2.outF).getD []) ++ [r]) : Option (List WRec)) = none := hnone
    cases this
  · show (if st2.highTS < r.ts then r.ts else st2.highTS)
      = maxTS initialHighTS (writtenOf (appendRec st2 r))
    rw [hwr, maxTS_snoc, ← W4]

theorem writeBlock_inv (cfg : WCfg) (st st' : WState) (r : WRec)
    (h : writeBlock cfg st r = some st') (hinv : WInv cfg st) :
    WInv cfg st' ∧ writtenOf st' = writtenOf st ++ [r] := by
  unfold writeBlock at h
  cases hsr : sizeRotate cfg st r.sizeOnDisk with
  | none =>
    rw [hsr] at h
    cases h
  | some st1 =>
    rw [hsr] at h
    injection h with h'
    subst h'
    obtain ⟨hinv1, hw1, hsz1⟩ := sizeRotate_inv cfg st st1 r.sizeOnDisk hsr hinv
    obtain ⟨hinv2, hw2, hsz2⟩ :=
      monthRotate_inv cfg st1 (cfg.dateOf r.ts) r.sizeOnDisk hinv1 hsz1
    obtain ⟨hinv3, hw3⟩ :=
      appendRec_winv cfg (monthRotate cfg st1 (cfg.dateOf r.ts)) r hinv2 hsz2
    refine ⟨hinv3, ?_⟩
    rw [hw3, hw2, hw1]

theorem runW_inv (cfg : WCfg) : ∀ (l : List WRec) (st st' : WState),
    runW cfg st l = some st' → WInv cfg st →
      WInv cfg st' ∧ writtenOf st' = writtenOf st ++ l := by
  intro l
  induction l with
  | nil =>
    intro st st' h hinv
    injection h with h'
    subst h'
    exact ⟨hinv, by simp⟩
  | cons r rest ih =>
    intro st st' h hinv
    unfold runW at h
    cases hwb : writeBlock cfg st r with
    | none =>
      rw [hwb] at h
      cases h
    | some st1 =>
      rw [hwb] at h
      obtain ⟨hinv1, hw1⟩ := writeBlock_inv cfg st st1 r hwb hinv
      obtain ⟨hinv', hw'⟩ := ih st1 st' h hinv1
      refine ⟨hinv', ?_⟩
      rw [hw', hw1]
      simp

theorem writeBlock_outF (cfg : WCfg) (st st' : WState) (r : WRec)
    (h : writeBlock cfg st r = some st') : (st'.outF).isSome = true := by
  unfold writeBlock at h
  cases hsr : sizeRotate cfg st r.sizeOnDisk with
  | none =>
    rw [hsr] at h
    cases h
  | some st1 =>
    rw [hsr] at h
    injection h with h'
    subst h'
    rfl

theorem runW_outF (cfg : WCfg) : ∀ (l : List WRec) (st st' : WState),
    runW cfg st l = some st' → l ≠ [] → (st'.outF).isSome = true := by
  intro l
  induction l with
  | nil =>
    intro st st' _ hne
    exact absurd rfl hne
  | cons r rest ih =>
    intro st st' h _
    unfold runW at h
    cases hwb : writeBlock cfg st r with
    | none =>
      rw [hwb] at h
      cases h
    | some st1 =>
      rw [hwb] at h
      cases rest with
      | nil =>
        injection h with h'
        subst h'
        exact writeBlock_outF cfg st st1 r hwb
      | cons q qs =>
        exact ih st1 st' h (by simp)

/-- C8: in directory-output mode with a configured maximum output size, no
finished (closed) output file's byte size exceeds the maximum unless the
file consists of exactly one record (the unavoidable overshoot of a single
record larger than the maximum), and the output files of a successful run,
concatenated, are exactly the record sequence — records are whole, in
order, never split across files. -/
theorem c8_size_bounded_rotation (cfg : WCfg) (rs : List WRec)
    (hdir : cfg.fileOutput = false) :
    (∀ f os, (f, os) ∈ wClosed cfg rs → fileSize f ≤ cfg.maxOutSz ∨ f.length = 1) ∧
    ((runW cfg (initW cfg) rs).isSome = true → (wAllFiles cfg rs).flatten = rs) := by
  constructor
  · intro f os hmem
    unfold wClosed at hmem
    cases hrun : runW cfg (initW cfg) rs with
    | none =>
      rw [hrun] at hmem
      simp at hmem
    | some st =>
      rw [hrun] at hmem
      obtain ⟨⟨W1, _, _, _, _⟩, _⟩ := runW_inv cfg rs (initW cfg) st hrun (WInv_init cfg)
      exact W1 f os hmem hdir
  · intro hsome
    cases hrun : runW cfg (initW cfg) rs with
    | none =>
      rw [hrun] at hsome
      simp at hsome
    | some st =>
      unfold wAllFiles
      rw [hrun]
      obtain ⟨_, hw⟩ := runW_inv cfg rs (initW cfg) st hrun (WInv_init cfg)
      have hinit : writtenOf (initW cfg) = [] := rfl
      rw [hinit] at hw
      rw [List.flatten_append]
      simpa [writtenOf] using hw

/-- Concrete writer configuration for the witnesses: directory output,
stamp-file-time on, no month split, 200-byte size cap. -/
def wcfgX : WCfg := ⟨false, true, false, 200, fun _ => 0, 0⟩

/-- Concrete record sequence for the writer witnesses: sizes
100, 150, 300, 100 bytes on disk. -/
def wrecsX : List WRec :=
  [⟨List.replicate 8 0, List.replicate 80 0, List.replicate 12 1⟩,
   ⟨List.replicate 8 0, List.replicate 80 0, List.replicate 62 1⟩,
   ⟨List.replicate 8 0, List.replicate 80 0, List.replicate 212 1⟩,
   ⟨List.replicate 8 0, List.replicate 80 0, List.replicate 12 1⟩]

/-- C8 witness: the size bound at the concrete four-record run (three
rotations, one of them an oversize single-record file). -/
theorem c8_witness :
    wcfgX.fileOutput = false ∧
    ((∀ f os, (f, os) ∈ wClosed wcfgX wrecsX →
        fileSize f ≤ wcfgX.maxOutSz ∨ f.length = 1) ∧
      ((runW wcfgX (initW wcfgX) wrecsX).isSome = true →
        (wAllFiles wcfgX wrecsX).flatten = wrecsX)) :=
  ⟨rfl, c8_size_bounded_rotation wcfgX wrecsX rfl⟩

/-- C10: when `setFileTime` is on, the mtime recorded for each rotated-out
(finished) file is the maximum record timestamp observed since the start of
the entire run — the running maximum over ALL files written so far,
initialised to `initialHighTS = 1408893517 - 315360000` — not only the
timestamps of that particular file; and the final file of a successful
nonempty run is still open at the end (`os.utime` runs only on rotation,
so the last file is never stamped). -/
theorem c10_stamp_is_global_running_max (cfg : WCfg) (rs : List WRec)
    (hset : cfg.setFileTime = true) :
    (∀ i (hi : i < (wClosed cfg rs).length),
        ((wClosed cfg rs).get ⟨i, hi⟩).2 =
          some (maxTS initialHighTS ((((wClosed cfg rs).map Prod.fst).take (i + 1)).flatten))) ∧
    (rs ≠ [] → (runW cfg (initW cfg) rs).isSome = true →
        ((((runW cfg (initW cfg) rs).getD (initW cfg)).outF).isSome = true)) := by
  constructor
  · intro i hi
    cases hrun : runW cfg (initW cfg) rs with
    | none =>
      exfalso
      have hcl : wClosed cfg rs = [] := by
        unfold wClosed
        rw [hrun]
      rw [hcl] at hi
      simp at hi
    | some st =>
      obtain ⟨⟨_, _, _, _, W5⟩, _⟩ := runW_inv cfg rs (initW cfg) st hrun (WInv_init cfg)
      have hcl : wClosed cfg rs = st.closed := by
        unfold wClosed
        rw [hrun]
      revert hi
      rw [hcl, W5, stampFiles_map_fst]
      intro hi
      exact stampFiles_get cfg hset (st.closed.map Prod.fst) initialHighTS i hi
  · intro hne hsome
    cases hrun : runW cfg (initW cfg) rs with
    | none =>
      rw [hrun] at hsome
      simp at hsome
    | some st =>
      simp only [Option.getD_some]
      exact runW_outF cfg rs (initW cfg) st hrun hne

/-- C10 witness: the stamp formula and open-final-file fact at the concrete
four-record run. -/
theorem c10_witness :
    wcfgX.setFileTime = true ∧
    ((∀ i (hi : i < (wClosed wcfgX wrecsX).length),
        ((wClosed wcfgX wrecsX).get ⟨i, hi⟩).2 =
          some (maxTS initialHighTS
            ((((wClosed wcfgX wrecsX).map Prod.fst).take (i + 1)).flatten))) ∧
      (wrecsX ≠ [] → (runW wcfgX (initW wcfgX) wrecsX).isSome = true →
        ((((runW wcfgX (initW wcfgX) wrecsX).getD (initW wcfgX)).outF).isSome = true))) :=
  ⟨rfl, c10_stamp_is_global_running_max wcfgX wrecsX rfl⟩
